import Mathlib

/-!
Shallow embedding of the repository's two source files:
  * `task1.py`   — `BloomFilter` (bit-vector membership filter, double hashing)
                   and `check_password_uniqueness` (uniqueness classifier);
  * `task2/task2.py` — `HyperLogLog` (cardinality estimator).

Python machine-level details are modelled as follows.

  * The `bytearray` backing the Bloom filter is a `List ℕ` of bytes; bit
    operations (`|`, `>>`, `&`, `<<`) are Lean's `Nat` bitwise operations, which
    agree with Python's on non-negative integers of any width.
  * `hashlib.sha256` / `hashlib.md5` / `hashlib.blake2b` are external library
    digests; they are modelled as explicit function parameters
    (`sha256 md5 hash64 : String → ℕ`) standing for
    `int.from_bytes(hashlib.X(item.encode("utf-8", errors="replace")).digest(), "big")`.
    Every theorem quantifies over them, so the proved properties hold whatever
    the digest values are; where a claim needs the genuine width of the digest
    (`blake2b(digest_size=8)` < 2^64) that bound is an explicit hypothesis.
  * Python floats are modelled exactly: the branch/accumulator arithmetic of
    `HyperLogLog.estimate` (sums of powers of two, the `alpha` constants, the
    threshold comparisons) is carried out in `ℚ`, and the final value —
    which involves `math.log` — lives in `ℝ` with `Real.log`.
  * `raise ValueError` / `raise TypeError` become `Except PyError`.
  * Python `dict` (insertion ordered, assignment overwrites in place) is a
    `List (String × String)` with an order-preserving overwrite `dictSet`.
-/

/-- Python exception kinds raised by the two modules: `ValueError` for bad
constructor arguments, `TypeError` for non-text filter operands. -/
inductive PyError where
  | valueError : PyError
  | typeError : PyError
deriving DecidableEq, Repr

/-- A Python runtime value passed to the filter API: a `str`, `None`, or some
other non-text object (modelled by an `Int`, standing for any non-`str`). -/
inductive PyVal where
  | str (s : String) : PyVal
  | none : PyVal
  | intV (n : Int) : PyVal
deriving DecidableEq, Repr

/-- Python `str(p)`: the string itself for a `str`, `"None"` for `None`, the decimal
rendering for an `int`. -/
def PyVal.pyStr : PyVal → String
  | .str s => s
  | .none => "None"
  | .intV n => toString n

/-- Python `isinstance(p, str)`. -/
def PyVal.isStr : PyVal → Bool
  | .str _ => true
  | _ => false

/-! ### BloomFilter (task1.py) -/

/-- The state of `BloomFilter`: `size` bits addressed modulo `size`,
`num_hashes` probe positions per item, `_bits` a bytearray of
`(size + 7) // 8` bytes. -/
structure BloomFilter where
  size : ℕ
  num_hashes : ℕ
  bits : List ℕ
deriving DecidableEq, Repr

/-- The constructor invariant established by `BloomFilter.__init__`:
positive `size` and `num_hashes`, and the bytearray covering `size` bits. -/
def BloomFilter.wf (f : BloomFilter) : Prop :=
  0 < f.size ∧ 0 < f.num_hashes ∧ f.bits.length = (f.size + 7) / 8

instance (f : BloomFilter) : Decidable f.wf := by
  unfold BloomFilter.wf; infer_instance

/-- Constructor `BloomFilter.__init__(size, num_hashes)`: rejects non-positive arguments
with `ValueError`, otherwise allocates a zeroed bytearray of
`(size + 7) // 8` bytes.  (The `isinstance(·, int)` checks are vacuous here
because the arguments are already integers.) -/
def BloomFilter.init (size num_hashes : Int) : Except PyError BloomFilter :=
  if size ≤ 0 then .error .valueError
  else if num_hashes ≤ 0 then .error .valueError
  else .ok ⟨size.toNat, num_hashes.toNat, List.replicate ((size.toNat + 7) / 8) 0⟩

/-- Model of `BloomFilter._set_bit(idx)`: `self._bits[idx // 8] |= 1 << (idx % 8)`. -/
def BloomFilter.set_bit (bits : List ℕ) (idx : ℕ) : List ℕ :=
  bits.set (idx / 8) (bits.getD (idx / 8) 0 ||| (1 <<< (idx % 8)))

/-- Model of `BloomFilter._get_bit(idx)`: `(self._bits[idx // 8] >> (idx % 8)) & 1`. -/
def BloomFilter.get_bit (bits : List ℕ) (idx : ℕ) : ℕ :=
  (bits.getD (idx / 8) 0 >>> (idx % 8)) &&& 1

/-- Model of `BloomFilter._hash_positions(item)`: double hashing.  `h1` is the sha256
digest, `h2` the md5 digest `or 1` (forced to `1` when zero); probe `i` is
`(h1 + i * h2) % size`.  The digests of `item.encode("utf-8", errors="replace")`
are the abstract parameters `sha256`, `md5` applied to `item`. -/
def BloomFilter.hash_positions (sha256 md5 : String → ℕ) (f : BloomFilter)
    (item : String) : List ℕ :=
  let h1 := sha256 item
  let h2 := if md5 item = 0 then 1 else md5 item
  (List.range f.num_hashes).map (fun i => (h1 + i * h2) % f.size)

/-- Model of `BloomFilter.add(item)` on a `str` argument: set every probe position.
(The `isinstance` type check is `BloomFilter.addChecked`.) -/
def BloomFilter.add (sha256 md5 : String → ℕ) (f : BloomFilter)
    (item : String) : BloomFilter :=
  { f with bits := (f.hash_positions sha256 md5 item).foldl BloomFilter.set_bit f.bits }

/-- Model of `BloomFilter.contains(item)` on a `str` argument:
`all(self._get_bit(pos) for pos in positions)` — every probe bit is non-zero
(Python truthiness of the `0`/`1` integer returned by `_get_bit`). -/
def BloomFilter.contains (sha256 md5 : String → ℕ) (f : BloomFilter)
    (item : String) : Bool :=
  (f.hash_positions sha256 md5 item).all (fun pos => BloomFilter.get_bit f.bits pos != 0)

/-- Model of `BloomFilter.add` including its argument type check:
`if not isinstance(item, str): raise TypeError(...)`. -/
def BloomFilter.addChecked (sha256 md5 : String → ℕ) (f : BloomFilter)
    (item : PyVal) : Except PyError BloomFilter :=
  match item with
  | .str s => .ok (f.add sha256 md5 s)
  | _ => .error .typeError

/-- Model of `BloomFilter.contains` including its argument type check. -/
def BloomFilter.containsChecked (sha256 md5 : String → ℕ) (f : BloomFilter)
    (item : PyVal) : Except PyError Bool :=
  match item with
  | .str s => .ok (f.contains sha256 md5 s)
  | _ => .error .typeError

/-! ### check_password_uniqueness (task1.py) -/

/-- Insertion-ordered Python `dict` assignment `d[k] = v`: overwrite in place
when the key exists, append otherwise. -/
def dictSet (d : List (String × String)) (k v : String) : List (String × String) :=
  if (d.map Prod.fst).contains k then
    d.map (fun kv => if kv.1 = k then (kv.1, v) else kv)
  else d ++ [(k, v)]

/-- Python `d[k]` / `d.get(k)`: the value stored at key `k`, if any. -/
def dictGet (d : List (String × String)) (k : String) : Option String :=
  (d.find? (fun kv => kv.1 == k)).map Prod.snd

/-- Python `p.strip() == ""` for a `str`: stripping leading and trailing
whitespace leaves the empty string exactly when every character is
whitespace.  (`Char.isWhitespace` is the model of Python's whitespace
class.) -/
def pyStripIsEmpty (s : String) : Bool := s.data.all Char.isWhitespace

/-- The per-candidate invalidity test of `check_password_uniqueness`:
`p is None or not isinstance(p, str) or p.strip() == ""`.  (`None` is not a
`str`, so the first disjunct is subsumed by the second.) -/
def pyInvalid : PyVal → Bool
  | .str s => pyStripIsEmpty s
  | _ => true

/-- One iteration of the `for p in new_passwords` loop of
`check_password_uniqueness`: the running state is the (mutable) filter paired
with the `results` dict. -/
def cpuStep (sha256 md5 : String → ℕ) (addUnique : Bool)
    (st : BloomFilter × List (String × String)) (p : PyVal) :
    BloomFilter × List (String × String) :=
  match p with
  | .str s =>
      if pyStripIsEmpty s then (st.1, dictSet st.2 s "некоректний")
      else if st.1.contains sha256 md5 s then (st.1, dictSet st.2 s "вже використаний")
      else ((if addUnique then st.1.add sha256 md5 s else st.1),
            dictSet st.2 s "унікальний")
  | other => (st.1, dictSet st.2 other.pyStr "некоректний")

/-- Model of `check_password_uniqueness(bloom, new_passwords, add_unique_to_filter)`:
fold the loop body over the candidates; returns the final filter state
(mutated in place in Python) together with the results dict. -/
def check_password_uniqueness (sha256 md5 : String → ℕ) (bloom : BloomFilter)
    (new_passwords : List PyVal) (add_unique_to_filter : Bool) :
    BloomFilter × List (String × String) :=
  new_passwords.foldl (cpuStep sha256 md5 add_unique_to_filter) (bloom, [])

/-! ### HyperLogLog (task2/task2.py) -/

/-- The state of `HyperLogLog`: precision `p`, register count `m = 2^p`,
bias constant `alpha` (an exact rational standing for the Python float
constant), and the `m` registers. -/
structure HyperLogLog where
  p : ℕ
  m : ℕ
  alpha : ℚ
  registers : List ℕ
deriving DecidableEq, Repr

/-- The `__init__` invariant: `p ∈ [4, 20]`, `m = 2^p`, and `m` registers. -/
def HyperLogLog.wf (h : HyperLogLog) : Prop :=
  4 ≤ h.p ∧ h.p ≤ 20 ∧ h.m = 2 ^ h.p ∧ h.registers.length = h.m

instance (h : HyperLogLog) : Decidable h.wf := by
  unfold HyperLogLog.wf; infer_instance

/-- Constructor `HyperLogLog.__init__(p)`: rejects `p` outside `[4, 20]` with
`ValueError`; otherwise sets `m = 1 << p`, zeroes the registers and picks
`alpha` by the piecewise rule on `m`.  (The `isinstance(p, int)` check is
vacuous because the argument is already an integer.) -/
def HyperLogLog.init (p : Int) : Except PyError HyperLogLog :=
  if p < 4 ∨ 20 < p then .error .valueError
  else
    let m : ℕ := 1 <<< p.toNat
    .ok { p := p.toNat, m := m,
          alpha :=
            if m = 16 then 673/1000
            else if m = 32 then 697/1000
            else if m = 64 then 709/1000
            else (7213/10000) / (1 + (1079/1000) / (m : ℚ)),
          registers := List.replicate m 0 }

/-- Model of `HyperLogLog._clz(w, bits)`: `bits` if `w == 0`, else
`bits - w.bit_length()`; `Nat.size` is Python's `int.bit_length` on
non-negative integers. -/
def HyperLogLog.clz (w bits : ℕ) : ℕ :=
  if w = 0 then bits else bits - Nat.size w

/-- The expression `idx = x >> (64 - p)` in `HyperLogLog.add`. -/
def HyperLogLog.idxOf (p x : ℕ) : ℕ := x >>> (64 - p)

/-- The expression `w = x & ((1 << (64 - p)) - 1)` in `HyperLogLog.add`. -/
def HyperLogLog.wOf (p x : ℕ) : ℕ := x &&& ((1 <<< (64 - p)) - 1)

/-- The expression `rho = _clz(w, 64 - p) + 1` in `HyperLogLog.add`. -/
def HyperLogLog.rhoOf (p x : ℕ) : ℕ :=
  HyperLogLog.clz (HyperLogLog.wOf p x) (64 - p) + 1

/-- Model of `HyperLogLog.add(item)`: hash to 64 bits (the abstract `hash64` parameter
stands for the big-endian `blake2b(..., digest_size=8)` digest), split into
register index and remaining bits, and update the register to the maximum of
its value and the rank `rho`. -/
def HyperLogLog.add (hash64 : String → ℕ) (h : HyperLogLog) (item : String) :
    HyperLogLog :=
  let x := hash64 item
  let idx := HyperLogLog.idxOf h.p x
  let rho := HyperLogLog.rhoOf h.p x
  if h.registers.getD idx 0 < rho then
    { h with registers := h.registers.set idx rho }
  else h

/-- The register-scan loop of `HyperLogLog.estimate`: accumulates
`inv_sum += 2.0 ** (-r)` and `zeros += 1` when `r == 0`, starting from
`(0.0, 0)`.  Python-float powers of two of these magnitudes are exact, so the
accumulator is modelled in `ℚ`. -/
def HyperLogLog.scan (registers : List ℕ) : ℚ × ℕ :=
  registers.foldl
    (fun (acc : ℚ × ℕ) (r : ℕ) =>
      (acc.1 + (2 : ℚ) ^ (-(r : ℤ)), if r = 0 then acc.2 + 1 else acc.2))
    (0, 0)

/-- The value `inv_sum` after the register scan. -/
def HyperLogLog.invSum (h : HyperLogLog) : ℚ := (HyperLogLog.scan h.registers).1

/-- The value `zeros` after the register scan. -/
def HyperLogLog.zeros (h : HyperLogLog) : ℕ := (HyperLogLog.scan h.registers).2

/-- The expression `raw = self.alpha * (m * m) / inv_sum`. -/
def HyperLogLog.raw (h : HyperLogLog) : ℚ :=
  h.alpha * ((h.m : ℚ) * (h.m : ℚ)) / h.invSum

/-- Model of `HyperLogLog.estimate()`: the raw harmonic-mean estimate with the
small-range (linear counting) and large-range corrections, in source order.
The comparisons are exact rational comparisons; the returned value, which
involves `math.log`, lives in `ℝ`. -/
noncomputable def HyperLogLog.estimate (h : HyperLogLog) : ℝ :=
  if h.raw ≤ 5/2 * (h.m : ℚ) ∧ 0 < h.zeros then
    (h.m : ℝ) * Real.log ((h.m : ℝ) / (h.zeros : ℝ))
  else if (2 : ℚ) ^ (64 : ℕ) / 30 < h.raw then
    -((2 : ℝ) ^ (64 : ℕ)) * Real.log (1 - (h.raw : ℝ) / (2 : ℝ) ^ (64 : ℕ))
  else (h.raw : ℝ)

/-! ### Bit-level lemmas about the Bloom filter bytearray -/

/-- Reading a bit: `_get_bit` is non-zero exactly when the addressed bit of the addressed
byte is set. -/
theorem get_bit_ne_zero_iff (bits : List ℕ) (idx : ℕ) :
    BloomFilter.get_bit bits idx ≠ 0 ↔
      (bits.getD (idx / 8) 0).testBit (idx % 8) = true := by
  unfold BloomFilter.get_bit
  rw [Nat.and_one_is_mod, Nat.shiftRight_eq_div_pow, Nat.testBit_to_div_mod]
  simp only [decide_eq_true_eq]
  have : bits.getD (idx / 8) 0 / 2 ^ (idx % 8) % 2 < 2 := Nat.mod_lt _ (by norm_num)
  omega

/-- Setting a bit preserves the bytearray length. -/
theorem set_bit_length (bits : List ℕ) (idx : ℕ) :
    (BloomFilter.set_bit bits idx).length = bits.length := by
  unfold BloomFilter.set_bit; simp

/-- The byte content of the bytearray after `_set_bit`: the addressed byte
(when inside the array) gets the mask OR-ed in, every other byte is
untouched. -/
theorem getD_set_bit (bits : List ℕ) (i k : ℕ) :
    (BloomFilter.set_bit bits i).getD k 0 =
      if k = i / 8 ∧ i / 8 < bits.length then
        bits.getD k 0 ||| (1 <<< (i % 8))
      else bits.getD k 0 := by
  unfold BloomFilter.set_bit
  by_cases hlen : i / 8 < bits.length
  · by_cases hk : k = i / 8
    · subst hk
      simp [List.getD_eq_getElem?_getD, List.getElem?_set_self, hlen]
    · simp [hk, List.getD_eq_getElem?_getD, List.getElem?_set_ne (Ne.symm hk)]
  · rw [List.set_eq_of_length_le (Nat.le_of_not_lt hlen)]
    simp [hlen]

/-- Setting a bit never clears another: `_get_bit` is monotone under
`_set_bit`. -/
theorem get_bit_mono_set_bit (bits : List ℕ) (i j : ℕ)
    (h : BloomFilter.get_bit bits j ≠ 0) :
    BloomFilter.get_bit (BloomFilter.set_bit bits i) j ≠ 0 := by
  rw [get_bit_ne_zero_iff] at h ⊢
  rw [getD_set_bit]
  by_cases hc : j / 8 = i / 8 ∧ i / 8 < bits.length
  · rw [if_pos hc, Nat.testBit_or, h, Bool.true_or]
  · rw [if_neg hc]; exact h

/-- After `_set_bit idx` on a byte inside the array, `_get_bit idx` is
non-zero. -/
theorem get_bit_set_bit_self (bits : List ℕ) (idx : ℕ)
    (h : idx / 8 < bits.length) :
    BloomFilter.get_bit (BloomFilter.set_bit bits idx) idx ≠ 0 := by
  rw [get_bit_ne_zero_iff, getD_set_bit, if_pos ⟨rfl, h⟩, Nat.testBit_or,
    Nat.shiftLeft_eq, one_mul, Nat.testBit_two_pow_self, Bool.or_true]

/-- Folding `_set_bit` over a list of positions preserves the length. -/
theorem foldl_set_bit_length (ps : List ℕ) (bits : List ℕ) :
    (ps.foldl BloomFilter.set_bit bits).length = bits.length := by
  induction ps generalizing bits with
  | nil => rfl
  | cons a as ih => simp [List.foldl_cons, ih, set_bit_length]

/-- Reading a set bit stays non-zero under a whole loop of `_set_bit`s. -/
theorem get_bit_mono_foldl (ps : List ℕ) (bits : List ℕ) (j : ℕ)
    (h : BloomFilter.get_bit bits j ≠ 0) :
    BloomFilter.get_bit (ps.foldl BloomFilter.set_bit bits) j ≠ 0 := by
  induction ps generalizing bits with
  | nil => exact h
  | cons a as ih => exact ih _ (get_bit_mono_set_bit _ _ _ h)

/-- After the `add` loop, every position of the list whose byte is inside the
array reads back non-zero. -/
theorem get_bit_foldl_of_mem (ps : List ℕ) (bits : List ℕ) (p : ℕ)
    (hmem : p ∈ ps) (hlen : p / 8 < bits.length) :
    BloomFilter.get_bit (ps.foldl BloomFilter.set_bit bits) p ≠ 0 := by
  induction ps generalizing bits with
  | nil => cases hmem
  | cons a as ih =>
    rw [List.foldl_cons]
    rcases List.mem_cons.mp hmem with rfl | htail
    · exact get_bit_mono_foldl _ _ _ (get_bit_set_bit_self _ _ hlen)
    · exact ih _ htail (by rw [set_bit_length]; exact hlen)

/-- Applying `_set_bit` at the same position twice is the same as once. -/
theorem set_bit_set_bit_same (bits : List ℕ) (i : ℕ) :
    BloomFilter.set_bit (BloomFilter.set_bit bits i) i =
      BloomFilter.set_bit bits i := by
  by_cases hlen : i / 8 < bits.length
  · unfold BloomFilter.set_bit
    rw [show (bits.set (i / 8) (bits.getD (i / 8) 0 ||| 1 <<< (i % 8))).getD (i / 8) 0
        = bits.getD (i / 8) 0 ||| 1 <<< (i % 8) by
      simp [List.getD_eq_getElem?_getD, List.getElem?_set_self, hlen]]
    rw [List.set_set, Nat.or_assoc, Nat.or_self]
  · have hid : BloomFilter.set_bit bits i = bits := by
      unfold BloomFilter.set_bit
      exact List.set_eq_of_length_le (Nat.le_of_not_lt hlen)
    rw [hid, hid]

/-- Two `_set_bit`s commute. -/
theorem set_bit_comm (bits : List ℕ) (i j : ℕ) :
    BloomFilter.set_bit (BloomFilter.set_bit bits i) j =
      BloomFilter.set_bit (BloomFilter.set_bit bits j) i := by
  by_cases hij : i / 8 = j / 8
  · by_cases hlen : i / 8 < bits.length
    · unfold BloomFilter.set_bit
      rw [hij] at *
      rw [show (bits.set (j / 8) (bits.getD (j / 8) 0 ||| 1 <<< (i % 8))).getD (j / 8) 0
          = bits.getD (j / 8) 0 ||| 1 <<< (i % 8) by
        simp [List.getD_eq_getElem?_getD, List.getElem?_set_self, hlen]]
      rw [show (bits.set (j / 8) (bits.getD (j / 8) 0 ||| 1 <<< (j % 8))).getD (j / 8) 0
          = bits.getD (j / 8) 0 ||| 1 <<< (j % 8) by
        simp [List.getD_eq_getElem?_getD, List.getElem?_set_self, hlen]]
      rw [List.set_set, List.set_set, Nat.or_assoc, Nat.or_assoc,
        Nat.or_comm (1 <<< (i % 8))]
    · have hidi : BloomFilter.set_bit bits i = bits :=
        List.set_eq_of_length_le (Nat.le_of_not_lt hlen)
      have hidj : BloomFilter.set_bit bits j = bits :=
        List.set_eq_of_length_le (by rw [← hij]; exact Nat.le_of_not_lt hlen)
      rw [hidi, hidj]; exact hidi.symm
  · unfold BloomFilter.set_bit
    rw [show (bits.set (i / 8) (bits.getD (i / 8) 0 ||| 1 <<< (i % 8))).getD (j / 8) 0
        = bits.getD (j / 8) 0 by
      simp [List.getD_eq_getElem?_getD, List.getElem?_set_ne hij]]
    rw [show (bits.set (j / 8) (bits.getD (j / 8) 0 ||| 1 <<< (j % 8))).getD (i / 8) 0
        = bits.getD (i / 8) 0 by
      simp [List.getD_eq_getElem?_getD, List.getElem?_set_ne (Ne.symm hij)]]
    exact List.set_comm _ _ _ hij

/-- A single `_set_bit` moves through a loop of `_set_bit`s. -/
theorem set_bit_foldl_comm (ps : List ℕ) (bits : List ℕ) (i : ℕ) :
    BloomFilter.set_bit (ps.foldl BloomFilter.set_bit bits) i =
      ps.foldl BloomFilter.set_bit (BloomFilter.set_bit bits i) := by
  induction ps generalizing bits with
  | nil => rfl
  | cons a as ih => rw [List.foldl_cons, List.foldl_cons, ih, set_bit_comm]

/-- Running the `add` loop twice over the same positions gives the bytearray
of a single run. -/
theorem foldl_set_bit_idem (ps : List ℕ) (bits : List ℕ) :
    ps.foldl BloomFilter.set_bit (ps.foldl BloomFilter.set_bit bits) =
      ps.foldl BloomFilter.set_bit bits := by
  induction ps generalizing bits with
  | nil => rfl
  | cons a as ih =>
    rw [List.foldl_cons, List.foldl_cons, set_bit_foldl_comm,
      set_bit_set_bit_same, ih]

/-! ### Basic facts about `hash_positions`, `add`, `contains` -/

/-- Every derived probe position is a valid bit index (`% size`). -/
theorem hash_positions_lt (sha256 md5 : String → ℕ) (f : BloomFilter)
    (item : String) (hsz : 0 < f.size) :
    ∀ p ∈ f.hash_positions sha256 md5 item, p < f.size := by
  intro p hp
  unfold BloomFilter.hash_positions at hp
  simp only [List.mem_map, List.mem_range] at hp
  obtain ⟨i, -, rfl⟩ := hp
  exact Nat.mod_lt _ hsz

/-- Insertion changes neither `size` nor `num_hashes` nor the bytearray length:
the constructor invariant is preserved. -/
theorem add_wf (sha256 md5 : String → ℕ) (f : BloomFilter) (item : String)
    (hwf : f.wf) : (f.add sha256 md5 item).wf := by
  obtain ⟨h1, h2, h3⟩ := hwf
  exact ⟨h1, h2, by rw [show (f.add sha256 md5 item).bits
    = (f.hash_positions sha256 md5 item).foldl BloomFilter.set_bit f.bits from rfl,
    foldl_set_bit_length]; exact h3⟩

/-- Core of the no-false-negative property: right after `add item`, every
probe bit of `item` reads back set, so `contains item` is `True`. -/
theorem contains_add_self (sha256 md5 : String → ℕ) (f : BloomFilter)
    (item : String) (hwf : f.wf) :
    (f.add sha256 md5 item).contains sha256 md5 item = true := by
  obtain ⟨hsz, -, hlen⟩ := hwf
  rw [BloomFilter.contains, List.all_eq_true]
  intro pos hpos
  rw [bne_iff_ne, ne_eq]
  have hpos' : pos ∈ f.hash_positions sha256 md5 item := hpos
  have hlt : pos < f.size := hash_positions_lt sha256 md5 f item hsz pos hpos'
  exact get_bit_foldl_of_mem _ _ _ hpos' (by omega)

/-! ### Bitwise inclusion and monotonicity of `contains` -/

/-- Bitwise inclusion of two bytearrays of equal length: every set bit of the
first is set in the second. -/
def bitsLe (b b' : List ℕ) : Prop :=
  b.length = b'.length ∧
  ∀ j i, (b.getD j 0).testBit i = true → (b'.getD j 0).testBit i = true

theorem bitsLe_refl (b : List ℕ) : bitsLe b b := ⟨rfl, fun _ _ h => h⟩

theorem bitsLe_trans {a b c : List ℕ} (h1 : bitsLe a b) (h2 : bitsLe b c) :
    bitsLe a c :=
  ⟨h1.1.trans h2.1, fun j i h => h2.2 j i (h1.2 j i h)⟩

/-- A `_set_bit` only adds bits. -/
theorem bitsLe_set_bit (b : List ℕ) (idx : ℕ) :
    bitsLe b (BloomFilter.set_bit b idx) := by
  refine ⟨(set_bit_length b idx).symm, fun j i h => ?_⟩
  rw [getD_set_bit]
  by_cases hc : j = idx / 8 ∧ idx / 8 < b.length
  · rw [if_pos hc, Nat.testBit_or, h, Bool.true_or]
  · rw [if_neg hc]; exact h

/-- The whole `add` loop only adds bits. -/
theorem bitsLe_foldl_set_bit (ps : List ℕ) (b : List ℕ) :
    bitsLe b (ps.foldl BloomFilter.set_bit b) := by
  induction ps generalizing b with
  | nil => exact bitsLe_refl b
  | cons a as ih => exact bitsLe_trans (bitsLe_set_bit b a) (ih _)

/-- The probe positions depend only on `size` and `num_hashes`. -/
theorem hash_positions_congr (sha256 md5 : String → ℕ) (f g : BloomFilter)
    (item : String) (hsz : f.size = g.size) (hnh : f.num_hashes = g.num_hashes) :
    f.hash_positions sha256 md5 item = g.hash_positions sha256 md5 item := by
  unfold BloomFilter.hash_positions
  rw [hsz, hnh]

/-- A positive `contains` answer survives any growth of the bit state: with
the same geometry and a bitwise-larger bytearray, `contains` stays `True`. -/
theorem contains_mono (sha256 md5 : String → ℕ) (f g : BloomFilter)
    (item : String) (hsz : f.size = g.size) (hnh : f.num_hashes = g.num_hashes)
    (hle : bitsLe f.bits g.bits)
    (h : f.contains sha256 md5 item = true) :
    g.contains sha256 md5 item = true := by
  rw [BloomFilter.contains, List.all_eq_true] at h ⊢
  intro pos hpos
  rw [← hash_positions_congr sha256 md5 f g item hsz hnh] at hpos
  have := h pos hpos
  rw [bne_iff_ne] at this ⊢
  exact (get_bit_ne_zero_iff _ _).mpr (hle.2 _ _ ((get_bit_ne_zero_iff _ _).mp this))

/-- The bytearray `f.bits` is bitwise below the bytearray after an `add`. -/
theorem bitsLe_add (sha256 md5 : String → ℕ) (f : BloomFilter) (item : String) :
    bitsLe f.bits (f.add sha256 md5 item).bits :=
  bitsLe_foldl_set_bit _ _

/-! ### Claim theorems for the Bloom filter core -/

/-- C1.  For every pair of digest functions, every well-formed filter state
(in particular every state reachable from the constructor by insertions,
since `add_wf` preserves well-formedness) and every string item, `contains`
returns `True` immediately after `add` of the same item: the filter has no
false negatives. -/
theorem C1_no_false_negatives (sha256 md5 : String → ℕ) (f : BloomFilter)
    (item : String) (hwf : f.wf) :
    (f.add sha256 md5 item).contains sha256 md5 item = true :=
  contains_add_self sha256 md5 f item hwf

/-- Concrete digest function used in witnesses (stands for sha256). -/
def shaT : String → ℕ := fun s => 100 * s.length + 7

/-- Concrete digest function used in witnesses (stands for md5); zero, to
exercise the `or 1` branch. -/
def md5T : String → ℕ := fun _ => 0

/-- Concrete well-formed filter used in witnesses: `size=16`, `num_hashes=3`,
zeroed 2-byte array. -/
def fT : BloomFilter := ⟨16, 3, [0, 0]⟩

/-- Witness for C1 at a concrete filter, item and digest pair. -/
theorem C1_witness :
    fT.wf ∧ (fT.add shaT md5T "ab").contains shaT md5T "ab" = true :=
  ⟨by decide, C1_no_false_negatives shaT md5T fT "ab" (by decide)⟩

/-- C4.  The `i`-th derived probe position is exactly
`(digest1 + i * digest2) mod size`, with `digest2` forced to `1` when the md5
digest is zero; the list has exactly `num_probes` entries and is a pure
function of the digests (hence deterministic across calls). -/
theorem C4_probe_positions (sha256 md5 : String → ℕ) (f : BloomFilter)
    (item : String) (i : ℕ) (hi : i < f.num_hashes) :
    (f.hash_positions sha256 md5 item).getD i 0 =
      (sha256 item + i * (if md5 item = 0 then 1 else md5 item)) % f.size ∧
    (f.hash_positions sha256 md5 item).length = f.num_hashes := by
  unfold BloomFilter.hash_positions
  refine ⟨?_, by simp⟩
  simp [List.getD_eq_getElem?_getD, List.getElem?_map, List.getElem?_range hi]

/-- Witness for C4 at a concrete filter, item and probe index (md5 digest
zero, so the forced `digest2 = 1` branch is exercised). -/
theorem C4_witness :
    2 < fT.num_hashes ∧
    ((fT.hash_positions shaT md5T "ab").getD 2 0 =
      (shaT "ab" + 2 * (if md5T "ab" = 0 then 1 else md5T "ab")) % fT.size ∧
     (fT.hash_positions shaT md5T "ab").length = fT.num_hashes) :=
  ⟨by decide, C4_probe_positions shaT md5T fT "ab" 2 (by decide)⟩

/-- C9.  Insertion is idempotent: adding the same item twice produces exactly
the bit state of adding it once, so every `query` answer (for any item) is
unchanged by the repeat insertion.  Holds for every filter state, well-formed
or not. -/
theorem C9_insert_idempotent (sha256 md5 : String → ℕ) (f : BloomFilter)
    (item : String) :
    (f.add sha256 md5 item).add sha256 md5 item = f.add sha256 md5 item ∧
    ∀ other : String,
      ((f.add sha256 md5 item).add sha256 md5 item).contains sha256 md5 other =
        (f.add sha256 md5 item).contains sha256 md5 other := by
  have h1 : (f.add sha256 md5 item).add sha256 md5 item = f.add sha256 md5 item := by
    cases f with
    | mk size num_hashes bits =>
      show BloomFilter.mk size num_hashes _ = BloomFilter.mk size num_hashes _
      rw [BloomFilter.mk.injEq]
      refine ⟨rfl, rfl, ?_⟩
      show ((BloomFilter.mk size num_hashes
          ((BloomFilter.hash_positions sha256 md5 ⟨size, num_hashes, bits⟩ item).foldl
            BloomFilter.set_bit bits)).hash_positions sha256 md5 item).foldl
          BloomFilter.set_bit _ = _
      rw [hash_positions_congr sha256 md5 _ ⟨size, num_hashes, bits⟩ item rfl rfl]
      exact foldl_set_bit_idem _ _
  exact ⟨h1, fun other => by rw [h1]⟩

/-! ### Claim C3: the argument type check of add/contains -/

/-- C3 counterexample.  The claim says `add`/`contains` reject the empty
string with a `TypeError`; in the code the only check is
`isinstance(item, str)`, which the empty string passes, so both operations
succeed on `""`. -/
theorem C3_counterexample :
    fT.addChecked shaT md5T (PyVal.str "") ≠ Except.error PyError.typeError ∧
    fT.containsChecked shaT md5T (PyVal.str "") ≠ Except.error PyError.typeError := by
  constructor <;> intro h <;> exact Except.noConfusion h

/-- C3 amended.  Non-text arguments to `add`/`contains` are rejected with a
`TypeError`; every `str` argument — the empty string included — is accepted
and processed normally (no silent coercion of non-text, no rejection of
`""`). -/
theorem C3_type_check (sha256 md5 : String → ℕ) (f : BloomFilter) (v : PyVal)
    (hv : v.isStr = false) :
    (f.addChecked sha256 md5 v = .error .typeError ∧
     f.containsChecked sha256 md5 v = .error .typeError) ∧
    ∀ s : String,
      f.addChecked sha256 md5 (.str s) = .ok (f.add sha256 md5 s) ∧
      f.containsChecked sha256 md5 (.str s) = .ok (f.contains sha256 md5 s) := by
  refine ⟨?_, fun s => ⟨rfl, rfl⟩⟩
  cases v with
  | str s => simp [PyVal.isStr] at hv
  | none => exact ⟨rfl, rfl⟩
  | intV n => exact ⟨rfl, rfl⟩

/-- Witness for C3 (amended) at `None` as the non-text argument. -/
theorem C3_witness :
    PyVal.none.isStr = false ∧
    ((fT.addChecked shaT md5T PyVal.none = .error .typeError ∧
      fT.containsChecked shaT md5T PyVal.none = .error .typeError) ∧
     ∀ s : String,
       fT.addChecked shaT md5T (.str s) = .ok (fT.add shaT md5T s) ∧
       fT.containsChecked shaT md5T (.str s) = .ok (fT.contains shaT md5T s)) :=
  ⟨by decide, C3_type_check shaT md5T fT PyVal.none (by decide)⟩

/-! ### Dict lemmas and claim C8 -/

/-- Overwriting an existing key stores the new value at that key. -/
theorem dictGet_update (d : List (String × String)) (k v : String)
    (h : (d.map Prod.fst).contains k = true) :
    dictGet (d.map (fun kv => if kv.1 = k then (kv.1, v) else kv)) k = some v := by
  induction d with
  | nil => simp at h
  | cons kv tl ih =>
    by_cases hk : kv.1 = k
    · rw [List.map_cons, if_pos hk]
      unfold dictGet
      rw [List.find?_cons_of_pos _ (by simp [hk])]
      rfl
    · rw [List.map_cons, if_neg hk]
      unfold dictGet
      rw [List.find?_cons_of_neg _ (by simp [hk])]
      apply ih
      simp only [List.map_cons, List.contains_cons, Bool.or_eq_true, beq_iff_eq] at h
      rcases h with h | h
      · exact absurd h.symm hk
      · exact h

/-- Appending a fresh key stores the new value at that key. -/
theorem dictGet_append_new (d : List (String × String)) (k v : String)
    (h : (d.map Prod.fst).contains k = false) :
    dictGet (d ++ [(k, v)]) k = some v := by
  induction d with
  | nil => simp [dictGet]
  | cons kv tl ih =>
    rw [List.cons_append]
    unfold dictGet
    have hk : ¬ kv.1 = k := by
      intro hkk
      simp only [List.map_cons, List.contains_cons, Bool.or_eq_false_iff,
        beq_eq_false_iff_ne, ne_eq] at h
      exact h.1 hkk.symm
    rw [List.find?_cons_of_neg _ (by simp [hk])]
    apply ih
    simp only [List.map_cons, List.contains_cons, Bool.or_eq_false_iff] at h
    exact h.2

/-- Python dict assignment followed by lookup of the same key returns the
assigned value. -/
theorem dictGet_dictSet_self (d : List (String × String)) (k v : String) :
    dictGet (dictSet d k v) k = some v := by
  unfold dictSet
  by_cases h : (d.map Prod.fst).contains k = true
  · rw [if_pos h]; exact dictGet_update d k v h
  · rw [if_neg h]; exact dictGet_append_new d k v (by simpa using h)

/-- An invalid candidate leaves the whole classifier state's filter component
untouched (the step neither queries nor mutates it). -/
theorem cpuStep_invalid (sha256 md5 : String → ℕ) (addU : Bool)
    (st : BloomFilter × List (String × String)) (c : PyVal)
    (hc : pyInvalid c = true) :
    cpuStep sha256 md5 addU st c = (st.1, dictSet st.2 c.pyStr "некоректний") := by
  cases c with
  | str s =>
    simp only [pyInvalid] at hc
    simp [cpuStep, hc, PyVal.pyStr]
  | none => rfl
  | intV n => rfl

/-- A batch made of invalid candidates leaves the filter exactly as it was. -/
theorem cpu_all_invalid (sha256 md5 : String → ℕ) (addU : Bool)
    (st : BloomFilter × List (String × String)) (ps : List PyVal)
    (h : ∀ x ∈ ps, pyInvalid x = true) :
    (ps.foldl (cpuStep sha256 md5 addU) st).1 = st.1 := by
  induction ps generalizing st with
  | nil => rfl
  | cons a as ih =>
    rw [List.foldl_cons, cpuStep_invalid sha256 md5 addU st a (h a (List.mem_cons_self a as))]
    exact ih _ (fun x hx => h x (List.mem_cons_of_mem _ hx))

/-- C8.  A candidate that is `None`, non-text, or whitespace-only is recorded
as `некоректний` (invalid) and the filter is neither queried nor mutated for
it: the step function returns the filter component unchanged, and a batch of
such candidates leaves the filter's bit state exactly as before. -/
theorem C8_invalid_frame (sha256 md5 : String → ℕ) (addU : Bool)
    (st : BloomFilter × List (String × String)) (c : PyVal)
    (bloom : BloomFilter) (ps : List PyVal)
    (hc : pyInvalid c = true) (hps : ∀ x ∈ ps, pyInvalid x = true) :
    cpuStep sha256 md5 addU st c = (st.1, dictSet st.2 c.pyStr "некоректний") ∧
    (check_password_uniqueness sha256 md5 bloom ps addU).1 = bloom := by
  exact ⟨cpuStep_invalid sha256 md5 addU st c hc,
    cpu_all_invalid sha256 md5 addU (bloom, []) ps hps⟩

/-- Witness for C8: `None`, an `int`, and a whitespace-only string. -/
theorem C8_witness :
    (pyInvalid PyVal.none = true ∧
     (∀ x ∈ [PyVal.none, PyVal.intV 5, PyVal.str "  "], pyInvalid x = true)) ∧
    (cpuStep shaT md5T true (fT, []) PyVal.none =
      ((fT, ([] : List (String × String))).1,
        dictSet (fT, ([] : List (String × String))).2 PyVal.none.pyStr "некоректний") ∧
     (check_password_uniqueness shaT md5T fT
        [PyVal.none, PyVal.intV 5, PyVal.str "  "] true).1 = fT) :=
  ⟨⟨by decide, by decide⟩,
    C8_invalid_frame shaT md5T true (fT, []) PyVal.none fT
      [PyVal.none, PyVal.intV 5, PyVal.str "  "] (by decide) (by decide)⟩

/-! ### Monotonicity of the classifier loop and claim C7 -/

/-- One classifier step never changes the filter geometry and only adds bits;
it also preserves the constructor invariant. -/
theorem cpuStep_mono (sha256 md5 : String → ℕ) (addU : Bool)
    (st : BloomFilter × List (String × String)) (p : PyVal) :
    (cpuStep sha256 md5 addU st p).1.size = st.1.size ∧
    (cpuStep sha256 md5 addU st p).1.num_hashes = st.1.num_hashes ∧
    bitsLe st.1.bits (cpuStep sha256 md5 addU st p).1.bits ∧
    (st.1.wf → (cpuStep sha256 md5 addU st p).1.wf) := by
  cases p with
  | str s =>
    by_cases h1 : pyStripIsEmpty s
    · simp [cpuStep, h1, bitsLe_refl]
    · by_cases h2 : st.1.contains sha256 md5 s
      · simp [cpuStep, h1, h2, bitsLe_refl]
      · cases addU with
        | false => simp [cpuStep, h1, h2, bitsLe_refl]
        | true =>
          have hstep : cpuStep sha256 md5 true st (PyVal.str s)
              = (st.1.add sha256 md5 s, dictSet st.2 s "унікальний") := by
            simp [cpuStep, h1, h2]
          rw [hstep]
          exact ⟨rfl, rfl, bitsLe_add sha256 md5 st.1 s,
            fun h => add_wf sha256 md5 st.1 s h⟩
  | none => exact ⟨rfl, rfl, bitsLe_refl _, fun h => h⟩
  | intV n => exact ⟨rfl, rfl, bitsLe_refl _, fun h => h⟩

/-- The whole classifier loop never changes the filter geometry, only adds
bits, and preserves the constructor invariant. -/
theorem cpu_run_mono (sha256 md5 : String → ℕ) (addU : Bool) (ps : List PyVal)
    (st : BloomFilter × List (String × String)) :
    (ps.foldl (cpuStep sha256 md5 addU) st).1.size = st.1.size ∧
    (ps.foldl (cpuStep sha256 md5 addU) st).1.num_hashes = st.1.num_hashes ∧
    bitsLe st.1.bits (ps.foldl (cpuStep sha256 md5 addU) st).1.bits ∧
    (st.1.wf → (ps.foldl (cpuStep sha256 md5 addU) st).1.wf) := by
  induction ps generalizing st with
  | nil => exact ⟨rfl, rfl, bitsLe_refl _, fun h => h⟩
  | cons a as ih =>
    obtain ⟨s1, n1, b1, w1⟩ := cpuStep_mono sha256 md5 addU st a
    obtain ⟨s2, n2, b2, w2⟩ := ih (cpuStep sha256 md5 addU st a)
    exact ⟨s2.trans s1, n2.trans n1, bitsLe_trans b1 b2, fun h => w2 (w1 h)⟩

/-- A `contains` answer that is already `True` stays `True` across any run of
the classifier loop. -/
theorem cpu_run_contains (sha256 md5 : String → ℕ) (addU : Bool)
    (ps : List PyVal) (st : BloomFilter × List (String × String)) (s : String)
    (h : st.1.contains sha256 md5 s = true) :
    (ps.foldl (cpuStep sha256 md5 addU) st).1.contains sha256 md5 s = true := by
  obtain ⟨s1, n1, b1, -⟩ := cpu_run_mono sha256 md5 addU ps st
  exact contains_mono sha256 md5 st.1 _ s s1.symm n1.symm b1 h

/-- C7.  With `add_unique_to_filter = true`: a valid password `s` that the
filter does not (yet) contain after the prefix `xs` is classified
`унікальний` (unique) and inserted immediately, so a second occurrence of the
same `s` later in the same batch is classified `вже використаний`
(duplicate); that status is what the final results dict holds at `s`. -/
theorem C7_second_occurrence (sha256 md5 : String → ℕ) (bloom : BloomFilter)
    (xs ys : List PyVal) (s : String) (hwf : bloom.wf)
    (hs : pyStripIsEmpty s = false)
    (hnew : (check_password_uniqueness sha256 md5 bloom xs true).1.contains
      sha256 md5 s = false) :
    dictGet (check_password_uniqueness sha256 md5 bloom
      (xs ++ [PyVal.str s]) true).2 s = some "унікальний" ∧
    dictGet (check_password_uniqueness sha256 md5 bloom
      ((xs ++ [PyVal.str s]) ++ ys ++ [PyVal.str s]) true).2 s =
      some "вже використаний" := by
  have hwf1 : (xs.foldl (cpuStep sha256 md5 true) (bloom, [])).1.wf :=
    (cpu_run_mono sha256 md5 true xs (bloom, [])).2.2.2 hwf
  unfold check_password_uniqueness at hnew ⊢
  simp only [List.foldl_append, List.foldl_cons, List.foldl_nil]
  generalize hG : List.foldl (cpuStep sha256 md5 true) (bloom, []) xs = st1
    at hnew hwf1 ⊢
  have hstep1 : cpuStep sha256 md5 true st1 (PyVal.str s)
      = (st1.1.add sha256 md5 s, dictSet st1.2 s "унікальний") := by
    simp [cpuStep, hs, hnew]
  rw [hstep1]
  refine ⟨dictGet_dictSet_self _ _ _, ?_⟩
  have hc2 : (st1.1.add sha256 md5 s).contains sha256 md5 s = true :=
    contains_add_self sha256 md5 _ s hwf1
  have hc3 : (List.foldl (cpuStep sha256 md5 true)
      (st1.1.add sha256 md5 s, dictSet st1.2 s "унікальний") ys).1.contains
        sha256 md5 s = true :=
    cpu_run_contains sha256 md5 true ys _ s hc2
  have hstep2 : cpuStep sha256 md5 true
      (List.foldl (cpuStep sha256 md5 true)
        (st1.1.add sha256 md5 s, dictSet st1.2 s "унікальний") ys) (PyVal.str s)
      = ((List.foldl (cpuStep sha256 md5 true)
            (st1.1.add sha256 md5 s, dictSet st1.2 s "унікальний") ys).1,
         dictSet (List.foldl (cpuStep sha256 md5 true)
            (st1.1.add sha256 md5 s, dictSet st1.2 s "унікальний") ys).2 s
           "вже використаний") := by
    simp [cpuStep, hs, hc3]
  rw [hstep2]
  exact dictGet_dictSet_self _ _ _

/-- Witness for C7: empty prefix, a `None` between the two occurrences of the
fresh password `"pw"`. -/
theorem C7_witness :
    (fT.wf ∧ pyStripIsEmpty "pw" = false ∧
     (check_password_uniqueness shaT md5T fT [] true).1.contains shaT md5T "pw"
       = false) ∧
    (dictGet (check_password_uniqueness shaT md5T fT
       ([] ++ [PyVal.str "pw"]) true).2 "pw" = some "унікальний" ∧
     dictGet (check_password_uniqueness shaT md5T fT
       (([] ++ [PyVal.str "pw"]) ++ [PyVal.none] ++ [PyVal.str "pw"]) true).2 "pw"
       = some "вже використаний") :=
  ⟨⟨by decide, by decide, by decide⟩,
    C7_second_occurrence shaT md5T fT [] [PyVal.none] "pw"
      (by decide) (by decide) (by decide)⟩

/-! ### HyperLogLog claims -/

/-- Setting a list entry to its current value is a no-op. -/
theorem list_set_getD_self (l : List ℕ) (n : ℕ) : l.set n (l.getD n 0) = l := by
  induction l generalizing n with
  | nil => rfl
  | cons a tl ih =>
    cases n with
    | zero => rfl
    | succ k => simp only [List.set_cons_succ, List.getD_cons_succ, ih]

/-- C6.  The constructor rejects every `p` outside `[4, 20]` with a
`ValueError`; inside the range it sets `m = 2^p`, zeroes the `m` registers and
picks `alpha` piecewise: `0.673` at `m = 16`, `0.697` at `m = 32`, `0.709` at
`m = 64`, and `0.7213 / (1 + 1.079 / m)` otherwise. -/
theorem C6_constructor (p : Int) :
    ((p < 4 ∨ 20 < p) → HyperLogLog.init p = .error .valueError) ∧
    (4 ≤ p → p ≤ 20 →
      HyperLogLog.init p = .ok
        { p := p.toNat, m := 2 ^ p.toNat,
          alpha :=
            if 2 ^ p.toNat = 16 then 673/1000
            else if 2 ^ p.toNat = 32 then 697/1000
            else if 2 ^ p.toNat = 64 then 709/1000
            else (7213/10000) / (1 + (1079/1000) / ((2 ^ p.toNat : ℕ) : ℚ)),
          registers := List.replicate (2 ^ p.toNat) 0 }) := by
  constructor
  · intro h
    unfold HyperLogLog.init
    rw [if_pos h]
  · intro h1 h2
    unfold HyperLogLog.init
    rw [if_neg (by omega)]
    have hm : (1 <<< p.toNat) = 2 ^ p.toNat := by
      rw [Nat.shiftLeft_eq, one_mul]
    simp only [hm]

/-- Witness for C6 at the out-of-range `p = 3` and the in-range `p = 5`
(so `m = 32`, `alpha = 0.697`). -/
theorem C6_witness :
    ((3 : Int) < 4 ∨ 20 < (3 : Int)) ∧ (4 ≤ (5 : Int) ∧ (5 : Int) ≤ 20) ∧
    HyperLogLog.init 3 = .error .valueError ∧
    HyperLogLog.init 5 = .ok ⟨5, 32, 697/1000, List.replicate 32 0⟩ := by
  refine ⟨Or.inl (by omega), ⟨by omega, by omega⟩,
    (C6_constructor 3).1 (Or.inl (by omega)), ?_⟩
  rw [(C6_constructor 5).2 (by omega) (by omega)]
  rfl

/-- C5.  For a 64-bit hash value: the register index (top `p` bits) lies in
`[0, m)`; the rank `rho` (leading zeros of the low `64 - p` bits, plus one)
lies in `[1, 64 - p + 1]`; and the update replaces the selected register by
the maximum of its current value and `rho`, leaving every other register —
and the register count — unchanged. -/
theorem C5_update (hash64 : String → ℕ) (h : HyperLogLog) (item : String)
    (hwf : h.wf) (hx : hash64 item < 2 ^ 64) :
    HyperLogLog.idxOf h.p (hash64 item) < h.m ∧
    1 ≤ HyperLogLog.rhoOf h.p (hash64 item) ∧
    HyperLogLog.rhoOf h.p (hash64 item) ≤ 64 - h.p + 1 ∧
    (h.add hash64 item).registers =
      h.registers.set (HyperLogLog.idxOf h.p (hash64 item))
        (max (h.registers.getD (HyperLogLog.idxOf h.p (hash64 item)) 0)
          (HyperLogLog.rhoOf h.p (hash64 item))) := by
  obtain ⟨hp4, hp20, hm, hlen⟩ := hwf
  refine ⟨?_, ?_, ?_, ?_⟩
  · rw [HyperLogLog.idxOf, Nat.shiftRight_eq_div_pow, hm]
    rw [Nat.div_lt_iff_lt_mul (Nat.pos_pow_of_pos _ (by norm_num)), ← pow_add]
    have : h.p + (64 - h.p) = 64 := by omega
    rw [this]
    exact hx
  · exact Nat.le_add_left 1 _
  · rw [HyperLogLog.rhoOf]
    have : HyperLogLog.clz (HyperLogLog.wOf h.p (hash64 item)) (64 - h.p)
        ≤ 64 - h.p := by
      rw [HyperLogLog.clz]
      by_cases hw : HyperLogLog.wOf h.p (hash64 item) = 0
      · rw [if_pos hw]
      · rw [if_neg hw]; exact Nat.sub_le _ _
    omega
  · rw [HyperLogLog.add]
    by_cases hlt : h.registers.getD (HyperLogLog.idxOf h.p (hash64 item)) 0
        < HyperLogLog.rhoOf h.p (hash64 item)
    · rw [if_pos hlt]
      rw [Nat.max_eq_right (Nat.le_of_lt hlt)]
    · rw [if_neg hlt]
      rw [Nat.max_eq_left (Nat.le_of_not_lt hlt), list_set_getD_self]

/-- Concrete 64-bit hash used in HyperLogLog witnesses. -/
def hash64T : String → ℕ := fun s => 3 * s.length + 1

/-- Concrete well-formed HyperLogLog state used in witnesses (`p = 4`). -/
def hllT : HyperLogLog := ⟨4, 16, 673/1000, List.replicate 16 0⟩

/-- Witness for C5 at a concrete estimator, item and hash. -/
theorem C5_witness :
    (hllT.wf ∧ hash64T "ab" < 2 ^ 64) ∧
    (HyperLogLog.idxOf hllT.p (hash64T "ab") < hllT.m ∧
     1 ≤ HyperLogLog.rhoOf hllT.p (hash64T "ab") ∧
     HyperLogLog.rhoOf hllT.p (hash64T "ab") ≤ 64 - hllT.p + 1 ∧
     (hllT.add hash64T "ab").registers =
       hllT.registers.set (HyperLogLog.idxOf hllT.p (hash64T "ab"))
         (max (hllT.registers.getD (HyperLogLog.idxOf hllT.p (hash64T "ab")) 0)
           (HyperLogLog.rhoOf hllT.p (hash64T "ab")))) :=
  ⟨⟨by decide, by decide⟩, C5_update hash64T hllT "ab" (by decide) (by decide)⟩

/-- The register-scan loop computes the sum of `2^(-r)` and the number of
zero registers. -/
theorem scan_eq (rs : List ℕ) :
    HyperLogLog.scan rs =
      ((rs.map (fun (r : ℕ) => (2 : ℚ) ^ (-(r : ℤ)))).sum, rs.count 0) := by
  unfold HyperLogLog.scan
  have aux : ∀ (a : ℚ) (z : ℕ),
      rs.foldl (fun (acc : ℚ × ℕ) (r : ℕ) =>
        (acc.1 + (2 : ℚ) ^ (-(r : ℤ)), if r = 0 then acc.2 + 1 else acc.2)) (a, z)
      = (a + (rs.map (fun (r : ℕ) => (2 : ℚ) ^ (-(r : ℤ)))).sum, z + rs.count 0) := by
    induction rs with
    | nil => intro a z; simp
    | cons r tl ih =>
      intro a z
      rw [List.foldl_cons, ih, List.map_cons, List.sum_cons, List.count_cons]
      by_cases hr : r = 0
      · simp [hr, add_assoc, add_comm, add_left_comm]
      · have : ¬ ((0 : ℕ) = r) := fun hc => hr hc.symm
        simp [hr, this, add_assoc, add_comm, add_left_comm]
  rw [aux, zero_add, Nat.zero_add]

/-- C10.  For every well-formed register state, every term `2^(-r)` of the
harmonic-mean denominator is strictly positive and there are `m = 2^p ≥ 16 > 0`
of them, so `inv_sum > 0`: the division computing the raw estimate in
`estimate()` never divides by zero. -/
theorem C10_denominator_pos (h : HyperLogLog) (hwf : h.wf) : 0 < h.invSum := by
  obtain ⟨hp4, -, hm, hlen⟩ := hwf
  rw [HyperLogLog.invSum, scan_eq]
  apply List.sum_pos
  · intro q hq
    simp only [List.mem_map] at hq
    obtain ⟨r, -, rfl⟩ := hq
    exact zpow_pos (by norm_num) _
  · have : h.registers ≠ [] := by
      intro hnil
      rw [hnil] at hlen
      have : 0 < 2 ^ h.p := Nat.pos_pow_of_pos _ (by norm_num)
      simp at hlen
      omega
    intro hc
    exact this (List.map_eq_nil_iff.mp hc)

/-- Witness for C10 at a concrete well-formed estimator. -/
theorem C10_witness : hllT.wf ∧ 0 < hllT.invSum :=
  ⟨by decide, C10_denominator_pos hllT (by decide)⟩

/-- Mirror of `estimate()` as the claim words it: raw harmonic-mean estimate
`alpha * m^2 / sum(2^-register)`; linear counting `m * ln(m / zeros)` when
`raw ≤ 2.5 m` and at least one register is zero; `-2^64 * ln(1 - raw/2^64)`
when `raw > 2^64 / 30`; otherwise `raw` unmodified. -/
noncomputable def estimateSpec (h : HyperLogLog) : ℝ :=
  let raw : ℚ :=
    h.alpha * (h.m : ℚ) ^ 2 / ((h.registers.map (fun (r : ℕ) => (2 : ℚ) ^ (-(r : ℤ)))).sum)
  let zeroRegisters := h.registers.count 0
  if raw ≤ 5/2 * (h.m : ℚ) ∧ 0 < zeroRegisters then
    (h.m : ℝ) * Real.log ((h.m : ℝ) / (zeroRegisters : ℝ))
  else if (2 : ℚ) ^ (64 : ℕ) / 30 < raw then
    -((2 : ℝ) ^ (64 : ℕ)) * Real.log (1 - (raw : ℝ) / (2 : ℝ) ^ (64 : ℕ))
  else (raw : ℝ)

/-- C2.  The code's `estimate()` — a single register scan accumulating
`inv_sum` and `zeros`, then the two correction branches in source order —
returns exactly the value the claim describes, for every register state. -/
theorem C2_estimate_branches (h : HyperLogLog) : h.estimate = estimateSpec h := by
  unfold HyperLogLog.estimate estimateSpec HyperLogLog.raw HyperLogLog.invSum
    HyperLogLog.zeros
  rw [scan_eq, pow_two]

/-! ### Reachability: the constructors establish, and the updates preserve,
the well-formedness invariants, so every reachable state is well-formed and
the claim theorems stated over well-formed states cover all reachable
states. -/

/-- A filter produced by the constructor is well-formed. -/
theorem init_wf (size num_hashes : Int) (f : BloomFilter)
    (h : BloomFilter.init size num_hashes = .ok f) : f.wf := by
  unfold BloomFilter.init at h
  by_cases h1 : size ≤ 0
  · rw [if_pos h1] at h; exact absurd h (by simp)
  · rw [if_neg h1] at h
    by_cases h2 : num_hashes ≤ 0
    · rw [if_pos h2] at h; exact absurd h (by simp)
    · rw [if_neg h2] at h
      injection h with h
      subst h
      exact ⟨by show 0 < size.toNat; omega,
        by show 0 < num_hashes.toNat; omega, by simp⟩

/-- An estimator produced by the constructor is well-formed. -/
theorem hll_init_wf (p : Int) (h : HyperLogLog)
    (hok : HyperLogLog.init p = .ok h) : h.wf := by
  unfold HyperLogLog.init at hok
  by_cases hr : p < 4 ∨ 20 < p
  · rw [if_pos hr] at hok; exact absurd hok (by simp)
  · rw [if_neg hr] at hok
    injection hok with hok
    subst hok
    refine ⟨by show 4 ≤ p.toNat; omega, by show p.toNat ≤ 20; omega, ?_, by simp⟩
    show 1 <<< p.toNat = 2 ^ p.toNat
    rw [Nat.shiftLeft_eq, one_mul]

/-- An estimator update preserves well-formedness. -/
theorem hll_add_wf (hash64 : String → ℕ) (h : HyperLogLog) (item : String)
    (hwf : h.wf) : (h.add hash64 item).wf := by
  obtain ⟨a, b, c, d⟩ := hwf
  rw [HyperLogLog.add]
  by_cases hc : h.registers.getD (HyperLogLog.idxOf h.p (hash64 item)) 0
      < HyperLogLog.rhoOf h.p (hash64 item)
  · rw [if_pos hc]; exact ⟨a, b, c, by simpa using d⟩
  · rw [if_neg hc]; exact ⟨a, b, c, d⟩
